import Mathlib

/-!
Shallow embedding of the BizonMatrix contract (src/contract/src/lib.rs).

Modelling conventions:
* `AccountId` is modelled as `String` (in the SDK used by the source,
  `AccountId` is a string; `"".parse().unwrap()` in `disable_owner` and
  `raw.parse().ok()` in `resolve_ref` are infallible string parses, so the
  disabled-owner sentinel is the empty string).
* `near_sdk::collections::UnorderedMap` is modelled as an association list
  in insertion order: `insert` overwrites the value of an existing key in
  place and appends a fresh key at the end, which matches the iteration
  order of the vector-backed map.  No key is ever removed by the contract.
* Machine integers (`u8`, `u32`, `u64`, `u128`) are modelled as `Nat` with
  explicit `% 2^w` wrapping where an overflow is possible.
* A `panic!`-style `assert!` aborts the whole call leaving the state
  untouched; such paths are modelled as `Except.error` results carrying the
  corresponding error kind, named after the panic messages / the spec's §7
  error taxonomy.
* The recursion `apply_spill ↔ on_matrix_full` is unbounded in the source;
  it is embedded with an explicit fuel parameter, `none` meaning that the
  allotted depth was exhausted (the termination claim shows fuel 2 always
  suffices on invariant states).
-/

namespace Bizon

abbrev Account : Type := String

abbrev BizonId : Type := String

/-- Wrapping `u128` arithmetic. -/
def w128 (n : Nat) : Nat := n % 2 ^ 128

/-- Wrapping `u32` arithmetic. -/
def w32 (n : Nat) : Nat := n % 2 ^ 32

/-- Wrapping `u64` subtraction `a - b` (two's complement wraparound). -/
def wsub64 (a b : Nat) : Nat := (a + 2 ^ 64 - b % 2 ^ 64) % 2 ^ 64

/-- Rust `str::starts_with`, modelled on the character list of the string. -/
def starts_with (s p : String) : Bool := p.data.isPrefixOf s.data

/-- Rust `str::ends_with`, modelled on the character list of the string. -/
def ends_with (s p : String) : Bool := p.data.isSuffixOf s.data

/-- Player record (`struct Player` in the source). -/
structure Player where
  bizon_id : BizonId
  referrer : Option Account
  join_ts : Nat
  level : Nat
  cycles : Nat
  pending_balance : Nat
  reinvest_rate : Nat
  deriving DecidableEq, Repr

/-- Contract state (`struct BizonMatrix` in the source).  The four
`UnorderedMap`s are association lists in insertion order. -/
structure State where
  players : List (Account × Player)
  matrix_fill : List (Account × Nat)
  id_to_account : List (BizonId × Account)
  account_to_id : List (Account × BizonId)
  next_id : Nat
  daily_pool : Nat
  monthly_pool : Nat
  yearly_pool : Nat
  global_pool : Nat
  total_players : Nat
  last_daily_ts : Nat
  last_monthly_ts : Nat
  last_yearly_ts : Nat
  owner_id : Account
  deriving DecidableEq, Repr

/-- Error kinds: the panic messages of the source, named following the
spec's §7 taxonomy plus the distinct `"Not a player"` panic. -/
inductive ContractError where
  | invalidPayment      -- "Need exactly 1 NEAR to join"
  | notAPlayer          -- "Not a player"
  | nothingToClaim      -- "Nothing to claim"
  | alreadyDistributed  -- "Daily already distributed"
  | noPlayers           -- "No players"
  | invalidRate         -- "Rate must be 0-100"
  | notAuthorized       -- "Not owner"
  deriving DecidableEq, Repr

/-- `UnorderedMap::get`: first entry with the given key. -/
def lookupEntry {β : Type} (k : Account) : List (Account × β) → Option β
  | [] => none
  | (k', v) :: t => if k' = k then some v else lookupEntry k t

/-- `UnorderedMap::insert`: overwrite the value of an existing key in
place, otherwise append the new entry at the end. -/
def setEntry {β : Type} (k : Account) (v : β) : List (Account × β) → List (Account × β)
  | [] => [(k, v)]
  | (k', v') :: t => if k' = k then (k, v) :: t else (k', v') :: setEntry k v t

/-- Keys of an association list, in iteration order. -/
def keysOf {β : Type} (l : List (Account × β)) : List Account := l.map Prod.fst

/-- Constructor `BizonMatrix::new(owner_id)`. -/
def new (owner_id : Account) : State where
  players := []
  matrix_fill := []
  id_to_account := []
  account_to_id := []
  next_id := 1
  daily_pool := 0
  monthly_pool := 0
  yearly_pool := 0
  global_pool := 0
  total_players := 0
  last_daily_ts := 0
  last_monthly_ts := 0
  last_yearly_ts := 0
  owner_id := owner_id

/-- Entry fee: 1 NEAR in yocto. -/
def one_near : Nat := 1000000000000000000000000

/-- `split_deposit`: split the fee 90/9/1 into the three pools, remainder
(if positive) into the global pool.  `u128` multiplications and additions
wrap. -/
def split_deposit (s : State) (amount : Nat) : State :=
  let daily := w128 (amount * 90) / 100
  let monthly := w128 (amount * 9) / 100
  let yearly := w128 (amount * 1) / 100
  let s1 := { s with
    daily_pool := w128 (s.daily_pool + daily)
    monthly_pool := w128 (s.monthly_pool + monthly)
    yearly_pool := w128 (s.yearly_pool + yearly) }
  let used := w128 (daily + monthly + yearly)
  if used < amount then
    { s1 with global_pool := w128 (s1.global_pool + (amount - used)) }
  else s1

/-- `ensure_bizon_id`: return the existing id, or mint `"ID{next_id}"`,
record the bidirectional mapping and bump `next_id`. -/
def ensure_bizon_id (s : State) (account : Account) : BizonId × State :=
  match lookupEntry account s.account_to_id with
  | some id => (id, s)
  | none =>
    let id_str := "ID" ++ toString s.next_id
    (id_str,
      { s with
        next_id := s.next_id + 1
        id_to_account := setEntry id_str account s.id_to_account
        account_to_id := setEntry account id_str s.account_to_id })

/-- `resolve_ref`: `"ID…"` looked up in the id index (falling through when
absent); `"….tg"` is deferred (`None`); `"….near"`/`"….testnet"` parses as
an account (an infallible string parse in this SDK); otherwise `None`. -/
def resolve_ref (s : State) (raw : String) : Option Account :=
  match (if starts_with raw "ID" then lookupEntry raw s.id_to_account else none) with
  | some acc => some acc
  | none =>
    if ends_with raw ".tg" then none
    else if ends_with raw ".near" || ends_with raw ".testnet" then some raw
    else none

/-- `find_emptiest_matrix`: scan `matrix_fill` in iteration order keeping
the strictly smallest fill (`min_fill` starts at `u8::MAX`); fall back to
the scheme owner when no record exists. -/
def find_emptiest_matrix (s : State) : Account :=
  let r := s.matrix_fill.foldl
    (fun (acc : Nat × Option Account) kv => if kv.2 < acc.1 then (kv.2, some kv.1) else acc)
    (255, none)
  r.2.getD s.owner_id

/-- Level/cycle update of `on_matrix_full`: `level += 1` (wrapping `u8`);
on reaching 10, `cycles += 1` (wrapping `u32`) and `level = 0`. -/
def levelUp (p : Player) : Player :=
  let lv := (p.level + 1) % 256
  if 10 ≤ lv then { p with level := 0, cycles := w32 (p.cycles + 1) }
  else { p with level := lv }

/-- State after the completion bookkeeping of `on_matrix_full`: the owner's
player record is replaced by `levelUp p` and the owner's matrix is reset
to 0 (in that order in the source). -/
def resetAfterFull (s : State) (owner : Account) (p : Player) : State :=
  { s with
    players := setEntry owner (levelUp p) s.players
    matrix_fill := setEntry owner 0 s.matrix_fill }

/-- `apply_spill` with explicit fuel; the body of `on_matrix_full` is
inlined at the recursive call (see `on_matrix_full` and
`apply_spill_succ` for the two-function shape of the source).  `none`
means the fuel was exhausted. -/
def apply_spill : Nat → State → Account → Option State
  | 0, _, _ => none
  | n + 1, s, owner =>
    let fill0 := (lookupEntry owner s.matrix_fill).getD 0
    let fill := if fill0 < 10 then fill0 + 1 else fill0
    let s1 := if fill0 < 10 then { s with matrix_fill := setEntry owner fill s.matrix_fill } else s
    if 10 ≤ fill then
      match lookupEntry owner s1.players with
      | none => some s1
      | some p =>
        let s2 := resetAfterFull s1 owner p
        let emptiest := find_emptiest_matrix s2
        if emptiest ≠ owner then apply_spill n s2 emptiest else some s2
    else some s1

/-- `on_matrix_full`, as in the source: level up the owner, reset the
owner's matrix, and re-spill into the emptiest matrix when it differs from
the owner. -/
def on_matrix_full (fuel : Nat) (s : State) (owner : Account) : Option State :=
  match lookupEntry owner s.players with
  | none => some s
  | some p =>
    let s2 := resetAfterFull s owner p
    let emptiest := find_emptiest_matrix s2
    if emptiest ≠ owner then apply_spill fuel s2 emptiest else some s2

/-- The inlined completion branch of `apply_spill` is exactly
`on_matrix_full` at one less fuel. -/
theorem apply_spill_succ (n : Nat) (s : State) (owner : Account) :
    apply_spill (n + 1) s owner =
      (let fill0 := (lookupEntry owner s.matrix_fill).getD 0
       let fill := if fill0 < 10 then fill0 + 1 else fill0
       let s1 := if fill0 < 10 then { s with matrix_fill := setEntry owner fill s.matrix_fill } else s
       if 10 ≤ fill then on_matrix_full n s1 owner else some s1) := by
  simp only [apply_spill, on_matrix_full]

/-- State after the non-spill part of `join` (id assignment, deposit
split, profile creation on first entry with self-referral filtered out). -/
def join_state (s : State) (caller : Account) (ref_raw : Option String) (now : Nat) : State :=
  let bs := ensure_bizon_id s caller
  let s2 := split_deposit bs.2 one_near
  if lookupEntry caller s2.players = none then
    let ref_acc := (ref_raw.bind fun r => resolve_ref s2 r).filter fun acc => !(acc == caller)
    { s2 with
      players := setEntry caller
        { bizon_id := bs.1, referrer := ref_acc, join_ts := now, level := 0,
          cycles := 0, pending_balance := 0, reinvest_rate := 0 } s2.players
      matrix_fill := setEntry caller 0 s2.matrix_fill
      total_players := s2.total_players + 1 }
  else s2

/-- `join`: require exactly 1 NEAR, ensure a BIZON id, split the deposit,
create the profile on first entry, then spill into the emptiest matrix. -/
def join (fuel : Nat) (s : State) (caller : Account) (ref_raw : Option String)
    (now : Nat) (deposit : Nat) : Option (Except ContractError State) :=
  if deposit ≠ one_near then some (.error .invalidPayment)
  else
    let s3 := join_state s caller ref_raw now
    (apply_spill fuel s3 (find_emptiest_matrix s3)).map Except.ok

/-- `set_reinvest_rate`: assert `rate ≤ 100`, then update the caller's
record, panicking with `"Not a player"` when there is none. -/
def set_reinvest_rate (s : State) (caller : Account) (rate : Nat) :
    Except ContractError State :=
  if ¬ rate ≤ 100 then .error .invalidRate
  else
    match lookupEntry caller s.players with
    | none => .error .notAPlayer
    | some p => .ok { s with players := setEntry caller { p with reinvest_rate := rate } s.players }

/-- Nanoseconds in a day. -/
def day_ns : Nat := 86400000000000

/-- `distribute_daily`: window and non-empty assertions, then either just
advance the timestamp (empty pool), sweep the whole pool to the global
pool (`share == 0`), or credit `share` to every player's pending balance
and zero the pool.  `now - last_daily_ts` is a wrapping `u64` subtraction. -/
def distribute_daily (s : State) (now : Nat) : Except ContractError State :=
  if ¬ day_ns < wsub64 now s.last_daily_ts then .error .alreadyDistributed
  else if ¬ 0 < s.total_players then .error .noPlayers
  else if s.daily_pool = 0 then .ok { s with last_daily_ts := now }
  else
    let share := s.daily_pool / s.total_players
    if share = 0 then
      .ok { s with
        global_pool := w128 (s.global_pool + s.daily_pool)
        daily_pool := 0
        last_daily_ts := now }
    else
      .ok { s with
        players := s.players.map fun ap =>
          (ap.1, { ap.2 with pending_balance := w128 (ap.2.pending_balance + share) })
        daily_pool := 0
        last_daily_ts := now }

/-- `claim_all`: read the caller's record (`"Not a player"` when absent),
require a positive pending balance (`"Nothing to claim"`), zero it and
return the claimed amount (the transfer itself is external). -/
def claim_all (s : State) (caller : Account) : Except ContractError (Nat × State) :=
  match lookupEntry caller s.players with
  | none => .error .notAPlayer
  | some p =>
    let amount := p.pending_balance
    if ¬ 0 < amount then .error .nothingToClaim
    else .ok (amount, { s with players := setEntry caller { p with pending_balance := 0 } s.players })

/-- `disable_owner`: owner-only; replace the owner with the empty-string
sentinel. -/
def disable_owner (s : State) (caller : Account) : Except ContractError State :=
  if caller = s.owner_id then .ok { s with owner_id := "" }
  else .error .notAuthorized

/-- Resulting state of a call: an error (`panic!`) aborts the transaction
and leaves the state unchanged. -/
def runState (s : State) : Except ContractError State → State
  | .ok s' => s'
  | .error _ => s

/-- Resulting state of a `join` call (`none` = model fuel exhausted,
treated as no state change). -/
def joinRun (fuel : Nat) (s : State) (caller : Account) (ref_raw : Option String)
    (now : Nat) (deposit : Nat) : State :=
  match join fuel s caller ref_raw now deposit with
  | some (.ok s') => s'
  | _ => s

/-- Resulting state of a `claim_all` call. -/
def claimRun (s : State) (caller : Account) : State :=
  match claim_all s caller with
  | .ok (_, s') => s'
  | .error _ => s

/-- Resulting state of an `apply_spill` call. -/
def spillRun (fuel : Nat) (s : State) (owner : Account) : State :=
  (apply_spill fuel s owner).getD s

end Bizon

namespace Bizon

/-! ### Association-list lemmas -/

theorem lookup_setEntry_self {β : Type} (k : Account) (v : β) (l : List (Account × β)) :
    lookupEntry k (setEntry k v l) = some v := by
  induction l with
  | nil => simp [setEntry, lookupEntry]
  | cons h t ih =>
    by_cases hk : h.1 = k
    · simp [setEntry, lookupEntry, hk]
    · simp [setEntry, lookupEntry, hk, ih]

theorem lookup_setEntry_ne {β : Type} (k k' : Account) (v : β) (l : List (Account × β))
    (h : k' ≠ k) : lookupEntry k' (setEntry k v l) = lookupEntry k' l := by
  induction l with
  | nil => simp [setEntry, lookupEntry, Ne.symm h]
  | cons hd t ih =>
    obtain ⟨a, b⟩ := hd
    by_cases hk : a = k
    · subst hk
      simp [setEntry, lookupEntry, Ne.symm h]
    · simp only [setEntry, if_neg hk]
      by_cases hk' : a = k'
      · simp [lookupEntry, hk']
      · simp [lookupEntry, hk', ih]

theorem mem_setEntry_self {β : Type} (k : Account) (v : β) (l : List (Account × β)) :
    (k, v) ∈ setEntry k v l := by
  induction l with
  | nil => simp [setEntry]
  | cons h t ih =>
    by_cases hk : h.1 = k
    · simp [setEntry, hk]
    · simp [setEntry, hk, ih]

theorem mem_setEntry {β : Type} (k a : Account) (v w : β) (l : List (Account × β))
    (h : (a, w) ∈ setEntry k v l) : (a = k ∧ w = v) ∨ (a, w) ∈ l := by
  induction l with
  | nil =>
    simp [setEntry] at h
    exact Or.inl ⟨h.1, h.2⟩
  | cons hd t ih =>
    by_cases hk : hd.1 = k
    · simp only [setEntry, if_pos hk, List.mem_cons] at h
      rcases h with h | h
      · exact Or.inl ⟨congrArg Prod.fst h, congrArg Prod.snd h⟩
      · exact Or.inr (List.mem_cons_of_mem _ h)
    · simp only [setEntry, if_neg hk, List.mem_cons] at h
      rcases h with h | h
      · exact Or.inr (h ▸ List.mem_cons_self _ _)
      · rcases ih h with h' | h'
        · exact Or.inl h'
        · exact Or.inr (List.mem_cons_of_mem _ h')

theorem keysOf_setEntry_of_mem {β : Type} (k : Account) (v : β) (l : List (Account × β))
    (h : k ∈ keysOf l) : keysOf (setEntry k v l) = keysOf l := by
  induction l with
  | nil => simp [keysOf] at h
  | cons hd t ih =>
    obtain ⟨a, b⟩ := hd
    by_cases hk : a = k
    · simp [setEntry, hk, keysOf]
    · simp only [keysOf, List.map_cons, List.mem_cons] at h
      rcases h with h | h
      · exact absurd h.symm hk
      · have := ih h
        simp only [keysOf] at this
        simp [setEntry, hk, keysOf, this]

theorem keysOf_setEntry_of_not_mem {β : Type} (k : Account) (v : β) (l : List (Account × β))
    (h : k ∉ keysOf l) : keysOf (setEntry k v l) = keysOf l ++ [k] := by
  induction l with
  | nil => simp [setEntry, keysOf]
  | cons hd t ih =>
    obtain ⟨a, b⟩ := hd
    simp only [keysOf, List.map_cons, List.mem_cons] at h
    push_neg at h
    have := ih h.2
    simp only [keysOf] at this
    simp [setEntry, Ne.symm h.1, keysOf, this]

theorem lookup_isSome_iff_mem_keys {β : Type} (k : Account) (l : List (Account × β)) :
    (lookupEntry k l).isSome ↔ k ∈ keysOf l := by
  induction l with
  | nil => simp [lookupEntry, keysOf]
  | cons hd t ih =>
    obtain ⟨a, b⟩ := hd
    by_cases hk : a = k
    · simp [lookupEntry, hk, keysOf]
    · simp [lookupEntry, hk, keysOf, ih, Ne.symm hk]

theorem lookup_eq_none_iff_not_mem_keys {β : Type} (k : Account) (l : List (Account × β)) :
    lookupEntry k l = none ↔ k ∉ keysOf l := by
  rw [← lookup_isSome_iff_mem_keys]
  cases h : lookupEntry k l <;> simp [h]

theorem lookup_of_mem_nodup {β : Type} (a : Account) (v : β) (l : List (Account × β))
    (hnd : (keysOf l).Nodup) (h : (a, v) ∈ l) : lookupEntry a l = some v := by
  induction l with
  | nil => simp at h
  | cons hd t ih =>
    simp only [keysOf, List.map_cons, List.nodup_cons] at hnd
    rcases List.mem_cons.mp h with h | h
    · subst h
      simp [lookupEntry]
    · have hne : hd.1 ≠ a := by
        intro he
        exact hnd.1 (he ▸ (List.mem_map.mpr ⟨(a, v), h, rfl⟩))
      simp [lookupEntry, hne, ih hnd.2 h]

theorem length_setEntry_of_mem {β : Type} (k : Account) (v : β) (l : List (Account × β))
    (h : k ∈ keysOf l) : (setEntry k v l).length = l.length := by
  induction l with
  | nil => simp [keysOf] at h
  | cons hd t ih =>
    by_cases hk : hd.1 = k
    · simp [setEntry, hk]
    · simp only [keysOf, List.map_cons, List.mem_cons] at h
      rcases h with h | h
      · exact absurd h.symm hk
      · simp [setEntry, hk, ih h]

theorem length_setEntry_of_not_mem {β : Type} (k : Account) (v : β) (l : List (Account × β))
    (h : k ∉ keysOf l) : (setEntry k v l).length = l.length + 1 := by
  induction l with
  | nil => simp [setEntry]
  | cons hd t ih =>
    obtain ⟨a, b⟩ := hd
    simp only [keysOf, List.map_cons, List.mem_cons] at h
    push_neg at h
    simp [setEntry, Ne.symm h.1, ih h.2]

theorem setEntry_setEntry {β : Type} (k : Account) (v w : β) (l : List (Account × β)) :
    setEntry k v (setEntry k w l) = setEntry k v l := by
  induction l with
  | nil => simp [setEntry]
  | cons hd t ih =>
    obtain ⟨a, b⟩ := hd
    by_cases hk : a = k
    · simp [setEntry, hk]
    · simp [setEntry, hk, ih]

theorem keysOf_map_snd {β γ : Type} (l : List (Account × β)) (f : Account → β → γ) :
    keysOf (l.map fun ap => (ap.1, f ap.1 ap.2)) = keysOf l := by
  induction l with
  | nil => rfl
  | cons hd t ih =>
    simp only [keysOf, List.map_cons] at ih ⊢
    rw [ih]

/-! ### The reachable-state invariant -/

/-- Invariant of reachable states: player and matrix-fill keys are
duplicate-free and coincide, every stored fill is at most 9, every stored
level is at most 9, and `total_players` counts the player records. -/
def Inv (s : State) : Prop :=
  (keysOf s.players).Nodup ∧
  (keysOf s.matrix_fill).Nodup ∧
  (∀ av ∈ s.matrix_fill, (av : Account × Nat).2 ≤ 9) ∧
  (∀ av ∈ s.matrix_fill, (av : Account × Nat).1 ∈ keysOf s.players) ∧
  (∀ ap ∈ s.players, (ap : Account × Player).1 ∈ keysOf s.matrix_fill) ∧
  (∀ ap ∈ s.players, (ap : Account × Player).2.level ≤ 9) ∧
  s.players.length = s.total_players

instance (s : State) : Decidable (Inv s) := by
  unfold Inv
  infer_instance

/-- `Inv` only looks at `players`, `matrix_fill` and `total_players`. -/
theorem Inv_congr (s s' : State) (hp : s'.players = s.players)
    (hm : s'.matrix_fill = s.matrix_fill) (ht : s'.total_players = s.total_players)
    (h : Inv s) : Inv s' := by
  unfold Inv at h ⊢
  rw [hp, hm, ht]
  exact h

/-! ### The emptiest-matrix scan -/

/-- Specification of the strict-minimum fold of `find_emptiest_matrix`:
the result is bounded by the initial accumulator and every scanned value,
and is either the untouched initial accumulator or a scanned entry. -/
theorem foldMin_spec (l : List (Account × Nat)) (m0 : Nat) (c0 : Option Account) :
    (∀ av ∈ l, (l.foldl (fun (acc : Nat × Option Account) kv =>
        if kv.2 < acc.1 then (kv.2, some kv.1) else acc) (m0, c0)).1 ≤ (av : Account × Nat).2) ∧
    (l.foldl (fun (acc : Nat × Option Account) kv =>
        if kv.2 < acc.1 then (kv.2, some kv.1) else acc) (m0, c0)).1 ≤ m0 ∧
    ((l.foldl (fun (acc : Nat × Option Account) kv =>
        if kv.2 < acc.1 then (kv.2, some kv.1) else acc) (m0, c0)) = (m0, c0) ∨
      ∃ av ∈ l, (l.foldl (fun (acc : Nat × Option Account) kv =>
        if kv.2 < acc.1 then (kv.2, some kv.1) else acc) (m0, c0)) =
          ((av : Account × Nat).2, some av.1)) := by
  induction l generalizing m0 c0 with
  | nil => simp
  | cons hd t ih =>
    by_cases hlt : hd.2 < m0
    · have h := ih hd.2 (some hd.1)
      refine ⟨?_, ?_, ?_⟩
      · intro av hav
        rcases List.mem_cons.mp hav with he | ht'
        · subst he
          simpa [List.foldl_cons, if_pos hlt] using h.2.1
        · simpa [List.foldl_cons, if_pos hlt] using h.1 av ht'
      · simp only [List.foldl_cons, if_pos hlt]
        exact le_trans h.2.1 (le_of_lt hlt)
      · simp only [List.foldl_cons, if_pos hlt]
        rcases h.2.2 with h' | ⟨av, hav, h'⟩
        · exact Or.inr ⟨hd, List.mem_cons_self _ _, h'⟩
        · exact Or.inr ⟨av, List.mem_cons_of_mem _ hav, h'⟩
    · have h := ih m0 c0
      refine ⟨?_, ?_, ?_⟩
      · intro av hav
        rcases List.mem_cons.mp hav with he | ht'
        · subst he
          simp only [List.foldl_cons, if_neg hlt]
          exact le_trans h.2.1 (le_of_not_lt hlt)
        · simpa [List.foldl_cons, if_neg hlt] using h.1 av ht'
      · simpa [List.foldl_cons, if_neg hlt] using h.2.1
      · simp only [List.foldl_cons, if_neg hlt]
        rcases h.2.2 with h' | ⟨av, hav, h'⟩
        · exact Or.inl h'
        · exact Or.inr ⟨av, List.mem_cons_of_mem _ hav, h'⟩

/-- On a duplicate-free non-empty fill table whose values stay at most 9,
`find_emptiest_matrix` returns a stored owner holding a minimal fill. -/
theorem find_emptiest_spec (s : State) (hnd : (keysOf s.matrix_fill).Nodup)
    (hne : s.matrix_fill ≠ []) (hle : ∀ av ∈ s.matrix_fill, (av : Account × Nat).2 ≤ 9) :
    ∃ m, lookupEntry (find_emptiest_matrix s) s.matrix_fill = some m ∧
      ∀ av ∈ s.matrix_fill, m ≤ (av : Account × Nat).2 := by
  obtain ⟨hmin, hm0, hres⟩ := foldMin_spec s.matrix_fill 255 none
  rcases hres with h' | ⟨av, hav, h'⟩
  · rcases List.exists_mem_of_ne_nil _ hne with ⟨hd, hhd⟩
    have h1 := hmin hd hhd
    have h2 := hle hd hhd
    rw [h'] at h1
    omega
  · refine ⟨av.2, ?_, ?_⟩
    · have : find_emptiest_matrix s = av.1 := by
        simp [find_emptiest_matrix, h']
      rw [this]
      exact lookup_of_mem_nodup av.1 av.2 s.matrix_fill hnd (by simpa using hav)
    · intro bv hbv
      have := hmin bv hbv
      rw [h'] at this
      exact this

end Bizon

namespace Bizon

/-! ### Spill-path lemmas -/

theorem mem_of_lookup {β : Type} (k : Account) (v : β) (l : List (Account × β))
    (h : lookupEntry k l = some v) : (k, v) ∈ l := by
  induction l with
  | nil => simp [lookupEntry] at h
  | cons hd t ih =>
    obtain ⟨a, b⟩ := hd
    by_cases hk : a = k
    · subst hk
      simp [lookupEntry] at h
      simp [h]
    · simp only [lookupEntry, if_neg hk] at h
      exact List.mem_cons_of_mem _ (ih h)

theorem mem_keysOf {β : Type} (k : Account) (l : List (Account × β)) :
    k ∈ keysOf l ↔ ∃ v, (k, v) ∈ l := by
  simp only [keysOf, List.mem_map]
  constructor
  · rintro ⟨⟨a, b⟩, hab, rfl⟩
    exact ⟨b, hab⟩
  · rintro ⟨v, hv⟩
    exact ⟨(k, v), hv, rfl⟩

/-- A spill into an owner with no fill record creates the record at 1. -/
theorem apply_spill_absent (n : Nat) (s : State) (o : Account)
    (h : lookupEntry o s.matrix_fill = none) :
    apply_spill (n + 1) s o = some { s with matrix_fill := setEntry o 1 s.matrix_fill } := by
  simp [apply_spill, h]

/-- A spill into an owner whose fill stays below 10 just increments it. -/
theorem apply_spill_low (n : Nat) (s : State) (o : Account) (f : Nat)
    (h : lookupEntry o s.matrix_fill = some f) (hf : f + 1 < 10) :
    apply_spill (n + 1) s o = some { s with matrix_fill := setEntry o (f + 1) s.matrix_fill } := by
  have h1 : f < 10 := by omega
  have h2 : ¬ 10 ≤ f + 1 := by omega
  simp [apply_spill, h, h1, h2]

/-- A spill into an owner at fill 9 reaches 10 and enters `on_matrix_full`
on the state holding the (transient) fill 10. -/
theorem apply_spill_full_step (n : Nat) (s : State) (o : Account)
    (h : lookupEntry o s.matrix_fill = some 9) :
    apply_spill (n + 1) s o =
      on_matrix_full n { s with matrix_fill := setEntry o 10 s.matrix_fill } o := by
  rw [apply_spill_succ]
  simp [h]

/-- Resetting the owner right after the transient fill 10 is the same as
resetting it on the original state. -/
theorem resetAfterFull_after_ten (s : State) (o : Account) (p : Player) :
    resetAfterFull { s with matrix_fill := setEntry o 10 s.matrix_fill } o p =
      resetAfterFull s o p := by
  cases s
  simp [resetAfterFull, setEntry_setEntry]

/-- The `levelUp` result always stores a level in `[0, 9]`. -/
theorem levelUp_level_le (p : Player) : (levelUp p).level ≤ 9 := by
  unfold levelUp
  by_cases h : 10 ≤ (p.level + 1) % 256
  · simp [h]
  · simp only [if_neg h]
    omega

/-- `apply_spill` on a fill-9 owner with a player record: the owner levels
up and resets; when the owner is no longer the emptiest, exactly one more
increment lands on the emptiest matrix (which sits at fill 0). -/
theorem apply_spill_nine (n : Nat) (s : State) (o : Account) (p : Player)
    (hInv : Inv s) (h9 : lookupEntry o s.matrix_fill = some 9)
    (hp : lookupEntry o s.players = some p) :
    (find_emptiest_matrix (resetAfterFull s o p) = o →
      apply_spill (n + 2) s o = some (resetAfterFull s o p)) ∧
    (find_emptiest_matrix (resetAfterFull s o p) ≠ o →
      apply_spill (n + 2) s o = some { resetAfterFull s o p with
        matrix_fill := setEntry (find_emptiest_matrix (resetAfterFull s o p)) 1
          (setEntry o 0 s.matrix_fill) }) := by
  obtain ⟨hnd1, hnd2, hfills, hmp, hpm, hlev, hlen⟩ := hInv
  have hstep := apply_spill_full_step (n + 1) s o h9
  have hpl : lookupEntry o ({ s with matrix_fill := setEntry o 10 s.matrix_fill } : State).players = some p := hp
  rw [hstep]
  unfold on_matrix_full
  rw [hpl]
  simp only [resetAfterFull_after_ten]
  constructor
  · intro he
    simp [he]
  · intro he
    simp only [ne_eq, he, not_false_iff, if_pos]
    -- the emptiest matrix of the reset state sits at fill 0
    have hmem0 : ((o, 0) : Account × Nat) ∈ (resetAfterFull s o p).matrix_fill := by
      simp only [resetAfterFull]
      exact mem_setEntry_self o 0 s.matrix_fill
    have hkeys : keysOf (resetAfterFull s o p).matrix_fill = keysOf s.matrix_fill := by
      simp only [resetAfterFull]
      exact keysOf_setEntry_of_mem o 0 s.matrix_fill
        ((mem_keysOf o s.matrix_fill).mpr ⟨9, mem_of_lookup o 9 s.matrix_fill h9⟩)
    have hfills' : ∀ av ∈ (resetAfterFull s o p).matrix_fill, (av : Account × Nat).2 ≤ 9 := by
      intro av hav
      simp only [resetAfterFull] at hav
      obtain ⟨a, w⟩ := av
      rcases mem_setEntry o a 0 w s.matrix_fill hav with ⟨_, hw⟩ | hmem
      · simp [hw]
      · exact hfills _ hmem
    obtain ⟨m, hm, hmle⟩ := find_emptiest_spec (resetAfterFull s o p)
      (by rw [hkeys]; exact hnd2)
      (by intro hnil; rw [hnil] at hmem0; simp at hmem0)
      hfills'
    have hm0 : m = 0 := Nat.le_antisymm (hmle _ hmem0) (Nat.zero_le m)
    subst hm0
    have := apply_spill_low n (resetAfterFull s o p) (find_emptiest_matrix (resetAfterFull s o p)) 0 hm (by omega)
    rw [this]
    simp [resetAfterFull]

/-- Bumping an existing fill to at most 9 preserves the invariant. -/
theorem Inv_bump (s : State) (o : Account) (f : Nat) (hInv : Inv s)
    (hmem : (o, f) ∈ s.matrix_fill) (hf : f + 1 ≤ 9) :
    Inv { s with matrix_fill := setEntry o (f + 1) s.matrix_fill } := by
  obtain ⟨hnd1, hnd2, hfills, hmp, hpm, hlev, hlen⟩ := hInv
  have ho : o ∈ keysOf s.matrix_fill := (mem_keysOf o s.matrix_fill).mpr ⟨f, hmem⟩
  have hkeys := keysOf_setEntry_of_mem o (f + 1) s.matrix_fill ho
  refine ⟨hnd1, by rw [hkeys]; exact hnd2, ?_, ?_, ?_, hlev, hlen⟩
  · intro av hav
    obtain ⟨a, w⟩ := av
    rcases mem_setEntry o a (f + 1) w s.matrix_fill hav with ⟨_, hw⟩ | hmem' 
    · simp [hw, hf]
    · exact hfills _ hmem'
  · intro av hav
    obtain ⟨a, w⟩ := av
    rcases mem_setEntry o a (f + 1) w s.matrix_fill hav with ⟨ha, _⟩ | hmem'
    · show a ∈ keysOf s.players
      rw [ha]
      exact hmp (o, f) hmem
    · exact hmp _ hmem'
  · intro ap hap
    rw [hkeys]
    exact hpm ap hap

/-- The completion bookkeeping preserves the invariant. -/
theorem Inv_reset (s : State) (o : Account) (p : Player) (hInv : Inv s)
    (ho : o ∈ keysOf s.matrix_fill) (hp : lookupEntry o s.players = some p) :
    Inv (resetAfterFull s o p) := by
  obtain ⟨hnd1, hnd2, hfills, hmp, hpm, hlev, hlen⟩ := hInv
  have hopk : o ∈ keysOf s.players :=
    (mem_keysOf o s.players).mpr ⟨p, mem_of_lookup o p s.players hp⟩
  have kp := keysOf_setEntry_of_mem o (levelUp p) s.players hopk
  have km := keysOf_setEntry_of_mem o (0 : Nat) s.matrix_fill ho
  refine ⟨?_, ?_, ?_, ?_, ?_, ?_, ?_⟩
  · show (keysOf (setEntry o (levelUp p) s.players)).Nodup
    rw [kp]; exact hnd1
  · show (keysOf (setEntry o (0 : Nat) s.matrix_fill)).Nodup
    rw [km]; exact hnd2
  · intro av hav
    obtain ⟨a, w⟩ := av
    rcases mem_setEntry o a (0 : Nat) w s.matrix_fill hav with ⟨_, hw⟩ | hmem'
    · simp [hw]
    · exact hfills _ hmem'
  · intro av hav
    obtain ⟨a, w⟩ := av
    show a ∈ keysOf (setEntry o (levelUp p) s.players)
    rw [kp]
    rcases mem_setEntry o a (0 : Nat) w s.matrix_fill hav with ⟨ha, _⟩ | hmem'
    · rw [ha]; exact hopk
    · exact hmp _ hmem'
  · intro ap hap
    obtain ⟨a, q⟩ := ap
    show a ∈ keysOf (setEntry o (0 : Nat) s.matrix_fill)
    rw [km]
    rcases mem_setEntry o a (levelUp p) q s.players hap with ⟨ha, _⟩ | hmem'
    · rw [ha]; exact ho
    · exact hpm _ hmem'
  · intro ap hap
    obtain ⟨a, q⟩ := ap
    rcases mem_setEntry o a (levelUp p) q s.players hap with ⟨_, hq⟩ | hmem'
    · show q.level ≤ 9
      rw [hq]
      exact levelUp_level_le p
    · exact hlev _ hmem'
  · show (setEntry o (levelUp p) s.players).length = s.total_players
    rw [length_setEntry_of_mem o (levelUp p) s.players hopk]
    exact hlen

end Bizon

namespace Bizon

/-- The emptiest matrix of a just-reset state sits at fill 0. -/
theorem reset_emptiest_zero (s : State) (o : Account) (p : Player)
    (hnd2 : (keysOf s.matrix_fill).Nodup) (ho : o ∈ keysOf s.matrix_fill)
    (hfills : ∀ av ∈ s.matrix_fill, (av : Account × Nat).2 ≤ 9) :
    lookupEntry (find_emptiest_matrix (resetAfterFull s o p))
      (resetAfterFull s o p).matrix_fill = some 0 := by
  have hmem0 : ((o, 0) : Account × Nat) ∈ (resetAfterFull s o p).matrix_fill :=
    mem_setEntry_self o 0 s.matrix_fill
  have hkeys : keysOf (resetAfterFull s o p).matrix_fill = keysOf s.matrix_fill :=
    keysOf_setEntry_of_mem o 0 s.matrix_fill ho
  have hfills' : ∀ av ∈ (resetAfterFull s o p).matrix_fill, (av : Account × Nat).2 ≤ 9 := by
    intro av hav
    obtain ⟨a, w⟩ := av
    rcases mem_setEntry o a 0 w s.matrix_fill hav with ⟨_, hw⟩ | hmem
    · simp [hw]
    · exact hfills _ hmem
  obtain ⟨m, hm, hmle⟩ := find_emptiest_spec (resetAfterFull s o p)
    (by rw [hkeys]; exact hnd2)
    (by intro hnil; rw [hnil] at hmem0; simp at hmem0)
    hfills'
  have hm0 : m = 0 := Nat.le_antisymm (hmle _ hmem0) (Nat.zero_le m)
  rw [hm0] at hm
  exact hm

/-- With fuel 1, a spill into a fill-9 owner succeeds exactly when the
owner remains the emptiest after its reset. -/
theorem apply_spill_one_nine (s : State) (o : Account) (p : Player)
    (h9 : lookupEntry o s.matrix_fill = some 9) (hp : lookupEntry o s.players = some p) :
    apply_spill 1 s o =
      (if find_emptiest_matrix (resetAfterFull s o p) = o
       then some (resetAfterFull s o p) else none) := by
  rw [show (1 : Nat) = 0 + 1 from rfl, apply_spill_full_step 0 s o h9]
  unfold on_matrix_full
  rw [show lookupEntry o
      ({ s with matrix_fill := setEntry o 10 s.matrix_fill } : State).players = some p
    from hp]
  simp only [resetAfterFull_after_ten]
  by_cases he : find_emptiest_matrix (resetAfterFull s o p) = o
  · simp [he]
  · simp [he, apply_spill]

/-- Any successful spill into an owner that has a fill record preserves
the invariant, whatever the fuel. -/
theorem apply_spill_preserves (s : State) (o : Account) (hInv : Inv s)
    (ho : o ∈ keysOf s.matrix_fill) :
    ∀ n s', apply_spill n s o = some s' → Inv s' := by
  intro n s' h
  cases n with
  | zero => simp [apply_spill] at h
  | succ m =>
    obtain ⟨f, hf⟩ := Option.isSome_iff_exists.mp
      ((lookup_isSome_iff_mem_keys o s.matrix_fill).mpr ho)
    have hf9 : f ≤ 9 := hInv.2.2.1 (o, f) (mem_of_lookup o f s.matrix_fill hf)
    by_cases hlow : f + 1 < 10
    · rw [apply_spill_low m s o f hf hlow] at h
      cases h
      exact Inv_bump s o f hInv (mem_of_lookup o f s.matrix_fill hf) (by omega)
    · have hfn : f = 9 := by omega
      subst hfn
      have hok : o ∈ keysOf s.players :=
        hInv.2.2.2.1 (o, 9) (mem_of_lookup o 9 s.matrix_fill hf)
      obtain ⟨p, hp⟩ := Option.isSome_iff_exists.mp
        ((lookup_isSome_iff_mem_keys o s.players).mpr hok)
      cases m with
      | zero =>
        rw [show (0 : Nat) + 1 = 1 from rfl, apply_spill_one_nine s o p hf hp] at h
        by_cases he : find_emptiest_matrix (resetAfterFull s o p) = o
        · rw [if_pos he] at h
          cases h
          exact Inv_reset s o p hInv ho hp
        · rw [if_neg he] at h
          cases h
      | succ k =>
        have h2 := apply_spill_nine k s o p hInv hf hp
        by_cases he : find_emptiest_matrix (resetAfterFull s o p) = o
        · rw [h2.1 he] at h
          cases h
          exact Inv_reset s o p hInv ho hp
        · rw [h2.2 he] at h
          cases h
          have hz := reset_emptiest_zero s o p hInv.2.1 ho hInv.2.2.1
          have hb := Inv_bump (resetAfterFull s o p) (find_emptiest_matrix (resetAfterFull s o p)) 0
            (Inv_reset s o p hInv ho hp)
            (mem_of_lookup _ _ _ hz) (by omega)
          exact hb

/-- Fuel 2 always suffices for a spill from an invariant state, and any
extra fuel computes the same final state. -/
theorem apply_spill_total (s : State) (o : Account) (hInv : Inv s) :
    ∃ s', ∀ m, apply_spill (m + 2) s o = some s' := by
  cases hf : lookupEntry o s.matrix_fill with
  | none => exact ⟨_, fun m => apply_spill_absent (m + 1) s o hf⟩
  | some f =>
    have hf9 : f ≤ 9 := hInv.2.2.1 (o, f) (mem_of_lookup o f s.matrix_fill hf)
    by_cases hlow : f + 1 < 10
    · exact ⟨_, fun m => apply_spill_low (m + 1) s o f hf hlow⟩
    · have hfn : f = 9 := by omega
      subst hfn
      have hok : o ∈ keysOf s.players :=
        hInv.2.2.2.1 (o, 9) (mem_of_lookup o 9 s.matrix_fill hf)
      obtain ⟨p, hp⟩ := Option.isSome_iff_exists.mp
        ((lookup_isSome_iff_mem_keys o s.players).mpr hok)
      by_cases he : find_emptiest_matrix (resetAfterFull s o p) = o
      · exact ⟨_, fun m => (apply_spill_nine m s o p hInv hf hp).1 he⟩
      · exact ⟨_, fun m => (apply_spill_nine m s o p hInv hf hp).2 he⟩

/-- `ensure_bizon_id` leaves players, fills and the counter unchanged. -/
theorem ensure_fields (s : State) (a : Account) :
    ((ensure_bizon_id s a).2).players = s.players ∧
    ((ensure_bizon_id s a).2).matrix_fill = s.matrix_fill ∧
    ((ensure_bizon_id s a).2).total_players = s.total_players := by
  unfold ensure_bizon_id
  cases lookupEntry a s.account_to_id <;> simp

/-- `split_deposit` leaves players, fills and the counter unchanged. -/
theorem split_fields (s : State) (x : Nat) :
    (split_deposit s x).players = s.players ∧
    (split_deposit s x).matrix_fill = s.matrix_fill ∧
    (split_deposit s x).total_players = s.total_players := by
  unfold split_deposit
  dsimp only
  split <;> simp

/-- Inserting a brand-new player (fresh key, level at most 9, fill 0,
counter bumped) preserves the invariant. -/
theorem Inv_insert_new (s : State) (c : Account) (q : Player) (hInv : Inv s)
    (hq : q.level ≤ 9) (hc : lookupEntry c s.players = none) :
    Inv { s with players := setEntry c q s.players,
                 matrix_fill := setEntry c 0 s.matrix_fill,
                 total_players := s.total_players + 1 } := by
  obtain ⟨hnd1, hnd2, hfills, hmp, hpm, hlev, hlen⟩ := hInv
  have hck : c ∉ keysOf s.players := (lookup_eq_none_iff_not_mem_keys c s.players).mp hc
  have hcm : c ∉ keysOf s.matrix_fill := by
    intro hmem
    rcases (mem_keysOf c s.matrix_fill).mp hmem with ⟨v, hv⟩
    exact hck (hmp _ hv)
  have kp := keysOf_setEntry_of_not_mem c q s.players hck
  have km := keysOf_setEntry_of_not_mem c (0 : Nat) s.matrix_fill hcm
  refine ⟨?_, ?_, ?_, ?_, ?_, ?_, ?_⟩
  · show (keysOf (setEntry c q s.players)).Nodup
    rw [kp]
    simp [List.nodup_append, hnd1, hck]
  · show (keysOf (setEntry c (0 : Nat) s.matrix_fill)).Nodup
    rw [km]
    simp [List.nodup_append, hnd2, hcm]
  · intro av hav
    obtain ⟨a, w⟩ := av
    rcases mem_setEntry c a (0 : Nat) w s.matrix_fill hav with ⟨_, hw⟩ | hmem'
    · simp [hw]
    · exact hfills _ hmem'
  · intro av hav
    obtain ⟨a, w⟩ := av
    show a ∈ keysOf (setEntry c q s.players)
    rw [kp]
    rcases mem_setEntry c a (0 : Nat) w s.matrix_fill hav with ⟨ha, _⟩ | hmem'
    · simp [ha]
    · simp [hmp _ hmem']
  · intro ap hap
    obtain ⟨a, q'⟩ := ap
    show a ∈ keysOf (setEntry c (0 : Nat) s.matrix_fill)
    rw [km]
    rcases mem_setEntry c a q q' s.players hap with ⟨ha, _⟩ | hmem'
    · simp [ha]
    · simp [hpm _ hmem']
  · intro ap hap
    obtain ⟨a, q'⟩ := ap
    rcases mem_setEntry c a q q' s.players hap with ⟨_, hq'⟩ | hmem'
    · show q'.level ≤ 9
      rw [hq']
      exact hq
    · exact hlev _ hmem'
  · show (setEntry c q s.players).length = s.total_players + 1
    rw [length_setEntry_of_not_mem c q s.players hck, hlen]

/-- The pre-spill part of `join` preserves the invariant and guarantees
the caller owns a fill record. -/
theorem join_state_good (s : State) (c : Account) (rr : Option String) (now : Nat)
    (hInv : Inv s) :
    Inv (join_state s c rr now) ∧ c ∈ keysOf (join_state s c rr now).matrix_fill := by
  unfold join_state
  have h1 := ensure_fields s c
  have h2 := split_fields (ensure_bizon_id s c).2 one_near
  have hfp : (split_deposit (ensure_bizon_id s c).2 one_near).players = s.players :=
    h2.1.trans h1.1
  have hfm : (split_deposit (ensure_bizon_id s c).2 one_near).matrix_fill = s.matrix_fill :=
    h2.2.1.trans h1.2.1
  have hft : (split_deposit (ensure_bizon_id s c).2 one_near).total_players = s.total_players :=
    h2.2.2.trans h1.2.2
  have hInv2 : Inv (split_deposit (ensure_bizon_id s c).2 one_near) :=
    Inv_congr s _ hfp hfm hft hInv
  by_cases hnew : lookupEntry c (split_deposit (ensure_bizon_id s c).2 one_near).players = none
  · simp only [hnew, if_pos, if_true, ite_true]
    constructor
    · exact Inv_insert_new _ c _ hInv2 (by simp) hnew
    · exact (mem_keysOf c _).mpr ⟨0, mem_setEntry_self c 0 _⟩
  · simp only [hnew, if_false, ite_false]
    refine ⟨hInv2, ?_⟩
    have hcp : c ∈ keysOf (split_deposit (ensure_bizon_id s c).2 one_near).players := by
      rcases Option.ne_none_iff_exists'.mp hnew with ⟨p, hp⟩
      exact (mem_keysOf c _).mpr ⟨p, mem_of_lookup c p _ hp⟩
    rcases (mem_keysOf c _).mp hcp with ⟨p, hp⟩
    exact hInv2.2.2.2.2.1 (c, p) hp

/-- `join` preserves the invariant. -/
theorem join_preserves_Inv (fuel : Nat) (s : State) (c : Account) (rr : Option String)
    (now dep : Nat) (hInv : Inv s) : Inv (joinRun fuel s c rr now dep) := by
  by_cases hdep : dep = one_near
  · cases hsp : apply_spill fuel (join_state s c rr now)
        (find_emptiest_matrix (join_state s c rr now)) with
    | none => simpa [joinRun, join, hdep, hsp] using hInv
    | some s' =>
      obtain ⟨hInv3, hcm⟩ := join_state_good s c rr now hInv
      have hne : (join_state s c rr now).matrix_fill ≠ [] := by
        intro hnil
        rw [hnil] at hcm
        simp [keysOf] at hcm
      have he : find_emptiest_matrix (join_state s c rr now) ∈
          keysOf (join_state s c rr now).matrix_fill := by
        obtain ⟨m, hm, _⟩ := find_emptiest_spec (join_state s c rr now)
          hInv3.2.1 hne hInv3.2.2.1
        exact (lookup_isSome_iff_mem_keys _ _).mp (by rw [hm]; rfl)
      have := apply_spill_preserves (join_state s c rr now) _ hInv3 he fuel s' hsp
      simpa [joinRun, join, hdep, hsp] using this
  · simpa [joinRun, join, hdep] using hInv

end Bizon

namespace Bizon

/-- The freshly constructed state satisfies the invariant. -/
theorem Inv_new (o : Account) : Inv (new o) := by
  simp [Inv, new, keysOf]

/-- Re-mapping every player value without touching keys or levels
preserves the invariant. -/
theorem Inv_map_players (s : State) (f : Account → Player → Player)
    (hl : ∀ a p, (f a p).level = p.level) (hInv : Inv s) :
    Inv { s with players := s.players.map fun ap => (ap.1, f ap.1 ap.2) } := by
  obtain ⟨hnd1, hnd2, hfills, hmp, hpm, hlev, hlen⟩ := hInv
  have hk := keysOf_map_snd s.players f
  refine ⟨?_, hnd2, hfills, ?_, ?_, ?_, ?_⟩
  · show (keysOf (s.players.map fun ap => (ap.1, f ap.1 ap.2))).Nodup
    rw [hk]; exact hnd1
  · intro av hav
    show (av : Account × Nat).1 ∈ keysOf (s.players.map fun ap => (ap.1, f ap.1 ap.2))
    rw [hk]
    exact hmp av hav
  · intro ap hap
    rcases List.mem_map.mp hap with ⟨bp, hbp, he⟩
    have h1 : (ap : Account × Player).1 = bp.1 := by rw [← he]
    rw [h1]
    exact hpm bp hbp
  · intro ap hap
    rcases List.mem_map.mp hap with ⟨bp, hbp, he⟩
    have h2 : (ap : Account × Player).2 = f bp.1 bp.2 := by rw [← he]
    show (ap : Account × Player).2.level ≤ 9
    rw [h2, hl]
    exact hlev bp hbp
  · show (s.players.map fun ap => (ap.1, f ap.1 ap.2)).length = s.total_players
    rw [List.length_map]
    exact hlen

/-- Overwriting an existing player with a record of level at most 9
preserves the invariant. -/
theorem Inv_update_player (s : State) (c : Account) (q : Player) (hInv : Inv s)
    (hc : c ∈ keysOf s.players) (hq : q.level ≤ 9) :
    Inv { s with players := setEntry c q s.players } := by
  obtain ⟨hnd1, hnd2, hfills, hmp, hpm, hlev, hlen⟩ := hInv
  have kp := keysOf_setEntry_of_mem c q s.players hc
  refine ⟨?_, hnd2, hfills, ?_, ?_, ?_, ?_⟩
  · show (keysOf (setEntry c q s.players)).Nodup
    rw [kp]; exact hnd1
  · intro av hav
    show (av : Account × Nat).1 ∈ keysOf (setEntry c q s.players)
    rw [kp]
    exact hmp av hav
  · intro ap hap
    obtain ⟨a, q'⟩ := ap
    rcases mem_setEntry c a q q' s.players hap with ⟨ha, _⟩ | hmem'
    · show a ∈ keysOf s.matrix_fill
      rw [ha]
      rcases (mem_keysOf c s.players).mp hc with ⟨p, hp⟩
      exact hpm (c, p) hp
    · exact hpm _ hmem'
  · intro ap hap
    obtain ⟨a, q'⟩ := ap
    rcases mem_setEntry c a q q' s.players hap with ⟨_, hq'⟩ | hmem'
    · show q'.level ≤ 9
      rw [hq']
      exact hq
    · exact hlev _ hmem'
  · show (setEntry c q s.players).length = s.total_players
    rw [length_setEntry_of_mem c q s.players hc]
    exact hlen

/-- `distribute_daily` preserves the invariant. -/
theorem distribute_preserves_Inv (s : State) (now : Nat) (hInv : Inv s) :
    Inv (runState s (distribute_daily s now)) := by
  by_cases h1 : day_ns < wsub64 now s.last_daily_ts
  · by_cases h2 : 0 < s.total_players
    · by_cases h3 : s.daily_pool = 0
      · have : runState s (distribute_daily s now) = { s with last_daily_ts := now } := by
          simp [distribute_daily, runState, h1, h2, h3]
        rw [this]
        exact Inv_congr s _ rfl rfl rfl hInv
      · by_cases h4 : s.daily_pool / s.total_players = 0
        · have : runState s (distribute_daily s now) =
              { s with global_pool := w128 (s.global_pool + s.daily_pool),
                       daily_pool := 0, last_daily_ts := now } := by
            simp [distribute_daily, runState, h1, h2, h3, h4]
          rw [this]
          exact Inv_congr s _ rfl rfl rfl hInv
        · have : runState s (distribute_daily s now) =
              { s with
                players := s.players.map fun ap =>
                  (ap.1, { ap.2 with pending_balance := w128 (ap.2.pending_balance + s.daily_pool / s.total_players) })
                daily_pool := 0
                last_daily_ts := now } := by
            simp [distribute_daily, runState, h1, h2, h3, h4]
          rw [this]
          have := Inv_map_players
            { s with daily_pool := 0, last_daily_ts := now }
            (fun _ p => { p with pending_balance := w128 (p.pending_balance + s.daily_pool / s.total_players) })
            (fun _ _ => rfl)
            (Inv_congr s _ rfl rfl rfl hInv)
          exact this
    · have : runState s (distribute_daily s now) = s := by
        simp [distribute_daily, runState, h1, h2]
      rw [this]
      exact hInv
  · have : runState s (distribute_daily s now) = s := by
      simp [distribute_daily, runState, h1]
    rw [this]
    exact hInv

/-- `claim_all` preserves the invariant. -/
theorem claim_preserves_Inv (s : State) (c : Account) (hInv : Inv s) :
    Inv (claimRun s c) := by
  cases hp : lookupEntry c s.players with
  | none =>
    have : claimRun s c = s := by simp [claimRun, claim_all, hp]
    rw [this]; exact hInv
  | some p =>
    by_cases hz : 0 < p.pending_balance
    · have : claimRun s c =
          { s with players := setEntry c { p with pending_balance := 0 } s.players } := by
        simp [claimRun, claim_all, hp, hz]
      rw [this]
      exact Inv_update_player s c _ hInv
        ((mem_keysOf c s.players).mpr ⟨p, mem_of_lookup c p s.players hp⟩)
        (hInv.2.2.2.2.2.1 (c, p) (mem_of_lookup c p s.players hp))
    · have : claimRun s c = s := by simp [claimRun, claim_all, hp, hz]
      rw [this]; exact hInv

/-- `set_reinvest_rate` preserves the invariant. -/
theorem rate_preserves_Inv (s : State) (c : Account) (rate : Nat) (hInv : Inv s) :
    Inv (runState s (set_reinvest_rate s c rate)) := by
  by_cases hr : rate ≤ 100
  · cases hp : lookupEntry c s.players with
    | none =>
      have : runState s (set_reinvest_rate s c rate) = s := by
        simp [runState, set_reinvest_rate, hr, hp]
      rw [this]; exact hInv
    | some p =>
      have : runState s (set_reinvest_rate s c rate) =
          { s with players := setEntry c { p with reinvest_rate := rate } s.players } := by
        simp [runState, set_reinvest_rate, hr, hp]
      rw [this]
      exact Inv_update_player s c _ hInv
        ((mem_keysOf c s.players).mpr ⟨p, mem_of_lookup c p s.players hp⟩)
        (hInv.2.2.2.2.2.1 (c, p) (mem_of_lookup c p s.players hp))
  · have : runState s (set_reinvest_rate s c rate) = s := by
      simp [runState, set_reinvest_rate, hr]
    rw [this]; exact hInv

/-- `disable_owner` preserves the invariant. -/
theorem owner_preserves_Inv (s : State) (c : Account) (hInv : Inv s) :
    Inv (runState s (disable_owner s c)) := by
  by_cases hc : c = s.owner_id
  · have : runState s (disable_owner s c) = { s with owner_id := "" } := by
      simp [runState, disable_owner, hc]
    rw [this]
    exact Inv_congr s _ rfl rfl rfl hInv
  · have : runState s (disable_owner s c) = s := by
      simp [runState, disable_owner, hc]
    rw [this]; exact hInv

end Bizon

namespace Bizon

/-! ### Arithmetic support for the fee split and distribution -/

/-- The three floor-division buckets never exceed the fee. -/
theorem div_sum_le (F : Nat) : F * 90 / 100 + F * 9 / 100 + F * 1 / 100 ≤ F := by
  have a := Nat.div_mul_le_self (F * 90) 100
  have b := Nat.div_mul_le_self (F * 9) 100
  have c := Nat.div_mul_le_self (F * 1) 100
  have h : (F * 90 / 100 + F * 9 / 100 + F * 1 / 100) * 100 ≤ F * 100 := by
    have e : (F * 90 / 100 + F * 9 / 100 + F * 1 / 100) * 100 =
        F * 90 / 100 * 100 + F * 9 / 100 * 100 + F * 1 / 100 * 100 := by ring
    rw [e]
    have e2 : F * 100 = F * 90 + F * 9 + F * 1 := by ring
    omega
  exact Nat.le_of_mul_le_mul_right h (by norm_num)

/-- Incrementing a level at most 8 neither wraps nor cycles. -/
theorem levelUp_low (q : Player) (h : q.level ≤ 8) :
    levelUp q = { q with level := q.level + 1 } := by
  unfold levelUp
  rw [Nat.mod_eq_of_lt (by omega)]
  rw [if_neg (by omega)]

/-- Incrementing a level 9 cycles: level back to 0, cycles bumped. -/
theorem levelUp_nine (q : Player) (h : q.level = 9) :
    levelUp q = { q with level := 0, cycles := w32 (q.cycles + 1) } := by
  unfold levelUp
  rw [h]
  norm_num

/-- Iterating `levelUp` from level 0 walks the level up one by one. -/
theorem levelUp_iterate (p : Player) (h0 : p.level = 0) :
    ∀ k, k ≤ 9 → levelUp^[k] p = { p with level := k } := by
  intro k hk
  induction k with
  | zero =>
    cases p
    simp only at h0
    simp [h0]
  | succ k ih =>
    rw [Function.iterate_succ_apply', ih (by omega)]
    by_cases h8 : k ≤ 8
    · rw [levelUp_low { p with level := k } (by simpa using h8)]
    · omega

/-- Sum of pending balances. -/
def pendSum (s : State) : Nat := (s.players.map fun ap => ap.2.pending_balance).sum

/-- Total value tracked by the ledger: the four pools plus every pending
balance. -/
def totalValue (s : State) : Nat :=
  s.daily_pool + s.monthly_pool + s.yearly_pool + s.global_pool + pendSum s

/-- Crediting `share` to every player adds `share * length` to the sum of
pending balances (absent `u128` overflow). -/
theorem pendSum_map_add (l : List (Account × Player)) (share : Nat)
    (hov : ∀ ap ∈ l, (ap : Account × Player).2.pending_balance + share < 2 ^ 128) :
    ((l.map fun ap => (ap.1, { ap.2 with pending_balance := w128 (ap.2.pending_balance + share) })).map
        fun ap => ap.2.pending_balance).sum =
      (l.map fun ap => ap.2.pending_balance).sum + share * l.length := by
  induction l with
  | nil => simp
  | cons hd t ih =>
    simp only [List.map_cons, List.sum_cons, List.length_cons]
    rw [ih fun ap h => hov ap (List.mem_cons_of_mem _ h)]
    have hh := hov hd (List.mem_cons_self _ _)
    simp only [w128]
    rw [Nat.mod_eq_of_lt hh]
    ring

end Bizon

namespace Bizon

/-! ### Concrete states used by witnesses and counterexamples -/

/-- A player one completion away from a cycle boundary check. -/
def pA : Player :=
  { bizon_id := "ID1", referrer := none, join_ts := 1, level := 0, cycles := 0,
    pending_balance := 0, reinvest_rate := 0 }

/-- A one-player state whose matrix sits at fill 9. -/
def sA : State :=
  { players := [("aa", pA)], matrix_fill := [("aa", 9)],
    id_to_account := [("ID1", "aa")], account_to_id := [("aa", "ID1")],
    next_id := 2, daily_pool := 0, monthly_pool := 0, yearly_pool := 0,
    global_pool := 0, total_players := 1, last_daily_ts := 0,
    last_monthly_ts := 0, last_yearly_ts := 0, owner_id := "owner" }

/-- The same player with a pending balance of 5. -/
def pB : Player := { pA with pending_balance := 5 }

/-- A one-player state with a claimable balance. -/
def sB : State := { sA with players := [("aa", pB)], matrix_fill := [("aa", 0)] }

/-- Three players, a daily pool of 7 (not a multiple of 3). -/
def sD : State :=
  { players := [("aa", pA),
      ("bb", { pA with bizon_id := "ID2" }), ("cc", { pA with bizon_id := "ID3" })],
    matrix_fill := [("aa", 0), ("bb", 0), ("cc", 0)],
    id_to_account := [("ID1", "aa"), ("ID2", "bb"), ("ID3", "cc")],
    account_to_id := [("aa", "ID1"), ("bb", "ID2"), ("cc", "ID3")],
    next_id := 4, daily_pool := 7, monthly_pool := 0, yearly_pool := 0,
    global_pool := 0, total_players := 3, last_daily_ts := 0,
    last_monthly_ts := 0, last_yearly_ts := 0, owner_id := "owner" }

/-- Shared consequence of a fuel-2 spill into a fill-9 owner: its fill
ends at 0 and its record is levelled up. -/
theorem spillRun_two_nine (s : State) (o : Account) (p : Player) (hInv : Inv s)
    (h9 : lookupEntry o s.matrix_fill = some 9) (hp : lookupEntry o s.players = some p) :
    lookupEntry o (spillRun 2 s o).matrix_fill = some 0 ∧
    lookupEntry o (spillRun 2 s o).players = some (levelUp p) := by
  have h2 := apply_spill_nine 0 s o p hInv h9 hp
  by_cases he : find_emptiest_matrix (resetAfterFull s o p) = o
  · have heq := h2.1 he
    have hrun : spillRun 2 s o = resetAfterFull s o p := by
      unfold spillRun
      rw [show (2 : Nat) = 0 + 2 from rfl, heq]
      rfl
    rw [hrun]
    exact ⟨lookup_setEntry_self o 0 s.matrix_fill,
      lookup_setEntry_self o (levelUp p) s.players⟩
  · have heq := h2.2 he
    have hrun : spillRun 2 s o = { resetAfterFull s o p with
        matrix_fill := setEntry (find_emptiest_matrix (resetAfterFull s o p)) 1
          (setEntry o 0 s.matrix_fill) } := by
      unfold spillRun
      rw [show (2 : Nat) = 0 + 2 from rfl, heq]
      rfl
    rw [hrun]
    constructor
    · show lookupEntry o (setEntry (find_emptiest_matrix (resetAfterFull s o p)) 1
        (setEntry o 0 s.matrix_fill)) = some 0
      rw [lookup_setEntry_ne (find_emptiest_matrix (resetAfterFull s o p)) o 1
        (setEntry o 0 s.matrix_fill) (Ne.symm he)]
      exact lookup_setEntry_self o 0 s.matrix_fill
    · exact lookup_setEntry_self o (levelUp p) s.players

/-! ### Claims -/

/-- C1: `split_deposit` credits `floor(F*90/100)` to the daily pool,
`floor(F*9/100)` to the monthly pool, `floor(F*1/100)` to the yearly pool
and the remainder `F - (sum of the three)` to the global pool, so that the
total pool increase is exactly `F` (and never exceeds it), for any fee `F`
that does not overflow the `u128` arithmetic. -/
theorem c1_fee_conservation (s : State) (F : Nat)
    (h1 : F * 90 < 2 ^ 128)
    (h2 : s.daily_pool + F * 90 / 100 < 2 ^ 128)
    (h3 : s.monthly_pool + F * 9 / 100 < 2 ^ 128)
    (h4 : s.yearly_pool + F * 1 / 100 < 2 ^ 128)
    (h5 : s.global_pool + (F - (F * 90 / 100 + F * 9 / 100 + F * 1 / 100)) < 2 ^ 128) :
    (split_deposit s F).daily_pool = s.daily_pool + F * 90 / 100 ∧
    (split_deposit s F).monthly_pool = s.monthly_pool + F * 9 / 100 ∧
    (split_deposit s F).yearly_pool = s.yearly_pool + F * 1 / 100 ∧
    (split_deposit s F).global_pool =
      s.global_pool + (F - (F * 90 / 100 + F * 9 / 100 + F * 1 / 100)) ∧
    F * 90 / 100 + F * 9 / 100 + F * 1 / 100 ≤ F ∧
    (split_deposit s F).daily_pool + (split_deposit s F).monthly_pool +
      (split_deposit s F).yearly_pool + (split_deposit s F).global_pool =
      s.daily_pool + s.monthly_pool + s.yearly_pool + s.global_pool + F := by
  have hsum := div_sum_le F
  have hF : F < 2 ^ 128 := by
    calc F = F * 1 := (Nat.mul_one F).symm
    _ ≤ F * 90 := Nat.mul_le_mul (le_refl F) (by norm_num)
    _ < 2 ^ 128 := h1
  have h9le : F * 9 ≤ F * 90 := Nat.mul_le_mul (le_refl F) (by norm_num)
  have h1le : F * 1 ≤ F * 90 := Nat.mul_le_mul (le_refl F) (by norm_num)
  unfold split_deposit
  dsimp only
  simp only [w128]
  rw [Nat.mod_eq_of_lt h1, Nat.mod_eq_of_lt (lt_of_le_of_lt h9le h1),
    Nat.mod_eq_of_lt (lt_of_le_of_lt h1le h1)]
  rw [Nat.mod_eq_of_lt (lt_of_le_of_lt hsum hF)]
  rw [Nat.mod_eq_of_lt h2, Nat.mod_eq_of_lt h3, Nat.mod_eq_of_lt h4]
  by_cases hlt : F * 90 / 100 + F * 9 / 100 + F * 1 / 100 < F
  · rw [if_pos hlt]
    rw [Nat.mod_eq_of_lt h5]
    refine ⟨rfl, rfl, rfl, rfl, hsum, ?_⟩
    dsimp only
    omega
  · rw [if_neg hlt]
    have he : F * 90 / 100 + F * 9 / 100 + F * 1 / 100 = F :=
      le_antisymm hsum (le_of_not_lt hlt)
    refine ⟨rfl, rfl, rfl, ?_, hsum, ?_⟩ <;> (dsimp only; omega)

/-- C1 witness: the 1-NEAR fee splits 90/9/1 with remainder 0 and is
conserved exactly on the fresh state. -/
theorem c1_witness :
    (split_deposit (new "ow") one_near).daily_pool + (split_deposit (new "ow") one_near).monthly_pool +
      (split_deposit (new "ow") one_near).yearly_pool + (split_deposit (new "ow") one_near).global_pool =
      (new "ow").daily_pool + (new "ow").monthly_pool + (new "ow").yearly_pool +
        (new "ow").global_pool + one_near :=
  (c1_fee_conservation (new "ow") one_near (by decide) (by decide) (by decide)
    (by decide) (by decide)).2.2.2.2.2

/-- C2 counterexample: a caller with no participant record fails with the
distinct `"Not a player"` error, not with `NothingToClaim` as claimed. -/
theorem c2_counterexample :
    claim_all (new "ow") "aa" = Except.error ContractError.notAPlayer ∧
    claim_all (new "ow") "aa" ≠ Except.error ContractError.nothingToClaim := by
  constructor
  · rfl
  · simp [claim_all, new, lookupEntry]

/-- C2 (amended): `claim_all` with a record and positive balance returns
exactly that balance, zeroes it in the same step, and an immediate second
claim fails with `NothingToClaim`; a zero balance fails with
`NothingToClaim`; a missing record fails with the distinct `NotAPlayer`
error; failures mutate nothing. -/
theorem c2_claim_drains (s : State) (c : Account) :
    (lookupEntry c s.players = none → claim_all s c = .error .notAPlayer) ∧
    (∀ p : Player, lookupEntry c s.players = some p → p.pending_balance = 0 →
      claim_all s c = .error .nothingToClaim) ∧
    (∀ p : Player, lookupEntry c s.players = some p → 0 < p.pending_balance →
      claim_all s c = .ok (p.pending_balance, claimRun s c) ∧
      lookupEntry c (claimRun s c).players = some { p with pending_balance := 0 } ∧
      claim_all (claimRun s c) c = .error .nothingToClaim) := by
  refine ⟨?_, ?_, ?_⟩
  · intro h
    simp [claim_all, h]
  · intro p hp hz
    simp [claim_all, hp, hz]
  · intro p hp hz
    have hrun : claimRun s c =
        { s with players := setEntry c { p with pending_balance := 0 } s.players } := by
      simp [claimRun, claim_all, hp, hz]
    have hlk : lookupEntry c (claimRun s c).players = some { p with pending_balance := 0 } := by
      rw [hrun]
      exact lookup_setEntry_self c _ s.players
    refine ⟨?_, hlk, ?_⟩
    · rw [hrun]
      simp [claim_all, hp, hz]
    · simp [claim_all, hlk]

/-- C2 witness: on a state with a pending balance of 5 the claim returns
5, zeroes the balance, and the second claim fails. -/
theorem c2_witness :
    claim_all sB "aa" = .ok (5, claimRun sB "aa") ∧
    lookupEntry "aa" (claimRun sB "aa").players = some { pB with pending_balance := 0 } ∧
    claim_all (claimRun sB "aa") "aa" = .error .nothingToClaim :=
  (c2_claim_drains sB "aa").2.2 pB (by decide) (by decide)

/-- C3: the fresh state satisfies the reachable-state invariant, every
operation preserves it, the invariant bounds every stored fill by 9, and
a spill that raises a fill from 9 to 10 leaves it stored at 0 after the
same operation (so no fill record ever rests at 10). -/
theorem c3_fill_bound :
    (∀ o : Account, Inv (new o)) ∧
    (∀ fuel s c rr now dep, Inv s → Inv (joinRun fuel s c rr now dep)) ∧
    (∀ s now, Inv s → Inv (runState s (distribute_daily s now))) ∧
    (∀ s c, Inv s → Inv (claimRun s c)) ∧
    (∀ s c rate, Inv s → Inv (runState s (set_reinvest_rate s c rate))) ∧
    (∀ s c, Inv s → Inv (runState s (disable_owner s c))) ∧
    (∀ s, Inv s → ∀ av ∈ s.matrix_fill, (av : Account × Nat).2 ≤ 9) ∧
    (∀ s o p, Inv s → lookupEntry o s.matrix_fill = some 9 →
      lookupEntry o s.players = some p →
      lookupEntry o (spillRun 2 s o).matrix_fill = some 0) := by
  refine ⟨Inv_new, join_preserves_Inv, distribute_preserves_Inv, claim_preserves_Inv,
    rate_preserves_Inv, owner_preserves_Inv, ?_, ?_⟩
  · intro s hInv av hav
    exact hInv.2.2.1 av hav
  · intro s o p hInv h9 hp
    exact (spillRun_two_nine s o p hInv h9 hp).1

/-- C3 witness: joining the fresh state keeps the invariant, and the
fill-9 matrix of `sA` rests at 0 after the spill that completes it. -/
theorem c3_witness :
    Inv (joinRun 2 (new "ow") "aa" none 7 one_near) ∧
    lookupEntry "aa" (spillRun 2 sA "aa").matrix_fill = some 0 :=
  ⟨c3_fill_bound.2.1 2 (new "ow") "aa" none 7 one_near (by decide),
    c3_fill_bound.2.2.2.2.2.2.2 sA "aa" pA (by decide) (by decide) (by decide)⟩

/-- C4: each matrix completion applies `levelUp` to the owner's record:
below level 9 it just increments the level; at level 9 it resets the level
to 0 and bumps `cycles`; the stored level always stays at most 9; from
level 0, nine completions give level 9 with `cycles` unchanged and ten
give level 0 with `cycles` exactly one higher. -/
theorem c4_cycle_arithmetic :
    (∀ q : Player, q.level ≤ 8 → levelUp q = { q with level := q.level + 1 }) ∧
    (∀ q : Player, q.level = 9 →
      (levelUp q).level = 0 ∧ (levelUp q).cycles = w32 (q.cycles + 1)) ∧
    (∀ q : Player, (levelUp q).level ≤ 9) ∧
    (∀ p : Player, p.level = 0 →
      (levelUp^[9] p).level = 9 ∧ (levelUp^[9] p).cycles = p.cycles) ∧
    (∀ p : Player, p.level = 0 → p.cycles + 1 < 2 ^ 32 →
      (levelUp^[10] p).level = 0 ∧ (levelUp^[10] p).cycles = p.cycles + 1) ∧
    (∀ s o p, Inv s → lookupEntry o s.matrix_fill = some 9 →
      lookupEntry o s.players = some p →
      lookupEntry o (spillRun 2 s o).players = some (levelUp p)) := by
  refine ⟨levelUp_low, ?_, levelUp_level_le, ?_, ?_, ?_⟩
  · intro q h
    rw [levelUp_nine q h]
    exact ⟨rfl, rfl⟩
  · intro p h0
    rw [levelUp_iterate p h0 9 (by norm_num)]
    exact ⟨rfl, rfl⟩
  · intro p h0 hc
    have h9 := levelUp_iterate p h0 9 (by norm_num)
    rw [show (10 : Nat) = 9 + 1 from rfl, Function.iterate_succ_apply', h9,
      levelUp_nine { p with level := 9 } rfl]
    refine ⟨rfl, ?_⟩
    show w32 (p.cycles + 1) = p.cycles + 1
    exact Nat.mod_eq_of_lt hc
  · intro s o p hInv h9 hp
    exact (spillRun_two_nine s o p hInv h9 hp).2

/-- C4 witness: concrete checks on `pA` (level 0) and on the fill-9 state
`sA`, whose completion stores `levelUp pA`. -/
theorem c4_witness :
    levelUp pA = { pA with level := 1 } ∧
    (levelUp^[9] pA).level = 9 ∧ (levelUp^[9] pA).cycles = 0 ∧
    (levelUp^[10] pA).level = 0 ∧ (levelUp^[10] pA).cycles = 1 ∧
    lookupEntry "aa" (spillRun 2 sA "aa").players = some (levelUp pA) := by
  refine ⟨c4_cycle_arithmetic.1 pA (by decide), (c4_cycle_arithmetic.2.2.2.1 pA (by decide)).1,
    (c4_cycle_arithmetic.2.2.2.1 pA (by decide)).2,
    (c4_cycle_arithmetic.2.2.2.2.1 pA (by decide) (by decide)).1,
    (c4_cycle_arithmetic.2.2.2.2.1 pA (by decide) (by decide)).2,
    c4_cycle_arithmetic.2.2.2.2.2 sA "aa" pA (by decide) (by decide) (by decide)⟩

end Bizon

namespace Bizon

/-- C5 counterexample: after a successful distribution, a second call in
the same day window *fails* with `"Daily already distributed"` instead of
returning as a silent no-op. -/
theorem c5_counterexample :
    distribute_daily sD (day_ns + 1) = Except.ok (runState sD (distribute_daily sD (day_ns + 1))) ∧
    distribute_daily (runState sD (distribute_daily sD (day_ns + 1))) (day_ns + 2) =
      Except.error ContractError.alreadyDistributed ∧
    distribute_daily (runState sD (distribute_daily sD (day_ns + 1))) (day_ns + 2) ≠
      Except.ok (runState sD (distribute_daily sD (day_ns + 1))) := by
  refine ⟨rfl, rfl, ?_⟩
  intro h
  rw [show distribute_daily (runState sD (distribute_daily sD (day_ns + 1))) (day_ns + 2) =
      Except.error ContractError.alreadyDistributed from rfl] at h
  exact Except.noConfusion h

/-- C5 (amended): a `distribute_daily` call earlier than one day after the
last distribution timestamp rejects with the hard error
`"Daily already distributed"`; as an aborted call it mutates no pool,
balance or timestamp. -/
theorem c5_window_rejects (s : State) (now : Nat)
    (h1 : s.last_daily_ts ≤ now) (h2 : now < s.last_daily_ts + day_ns)
    (h3 : now < 2 ^ 64) :
    distribute_daily s now = .error .alreadyDistributed := by
  have hl : s.last_daily_ts < 2 ^ 64 := lt_of_le_of_lt h1 h3
  have hw : wsub64 now s.last_daily_ts = now - s.last_daily_ts := by
    unfold wsub64
    rw [Nat.mod_eq_of_lt hl]
    have he : now + 2 ^ 64 - s.last_daily_ts = now - s.last_daily_ts + 2 ^ 64 := by omega
    rw [he, Nat.add_mod_right]
    exact Nat.mod_eq_of_lt (by omega)
  unfold distribute_daily
  rw [hw, if_pos (by omega)]

/-- C5 witness: a call 5 ns into the window is rejected. -/
theorem c5_witness : distribute_daily sD 5 = Except.error ContractError.alreadyDistributed :=
  c5_window_rejects sD 5 (by decide) (by decide) (by decide)

/-- C6 counterexample: an unmapped `"ID…"` input does not yield `None`:
`"ID1.testnet"` falls through to the network-suffix rule and resolves to
itself. -/
theorem c6_counterexample :
    lookupEntry "ID1.testnet" (new "ow").id_to_account = none ∧
    starts_with "ID1.testnet" "ID" = true ∧
    resolve_ref (new "ow") "ID1.testnet" = some "ID1.testnet" :=
  ⟨rfl, by decide, by decide⟩

/-- C6 (amended): for an input starting with `"ID"`, `resolve_ref` returns
the mapped account when the id index has one; when it has none the input
falls through to the alias/suffix rules (`.tg` → none, `.near`/`.testnet`
→ the parsed input itself, otherwise none). -/
theorem c6_resolve_id (s : State) (raw : String) (h : starts_with raw "ID" = true) :
    (∀ acc, lookupEntry raw s.id_to_account = some acc → resolve_ref s raw = some acc) ∧
    (lookupEntry raw s.id_to_account = none →
      resolve_ref s raw =
        if ends_with raw ".tg" then none
        else if ends_with raw ".near" || ends_with raw ".testnet" then some raw
        else none) := by
  constructor
  · intro acc hacc
    simp [resolve_ref, h, hacc]
  · intro hnone
    simp [resolve_ref, h, hnone]

/-- A state holding the single id mapping `"ID1" ↦ "aa"`. -/
def sM : State := { new "ow" with id_to_account := [("ID1", "aa")] }

/-- C6 witness: a mapped id resolves to its account; an unmapped id with a
network suffix resolves to itself. -/
theorem c6_witness :
    resolve_ref sM "ID1" = some "aa" ∧ resolve_ref sM "ID9.near" = some "ID9.near" := by
  constructor
  · exact (c6_resolve_id sM "ID1" (by decide)).1 "aa" (by decide)
  · rw [(c6_resolve_id sM "ID9.near" (by decide)).2 (by decide)]
    decide

/-- C7 counterexample: `set_reinvest_rate` by an unknown caller with a
valid rate does not succeed as a tolerant no-op: it fails with
`"Not a player"`. -/
theorem c7_counterexample :
    set_reinvest_rate (new "ow") "aa" 50 = Except.error ContractError.notAPlayer ∧
    set_reinvest_rate (new "ow") "aa" 50 ≠ Except.ok (new "ow") := by
  refine ⟨rfl, ?_⟩
  intro h
  rw [show set_reinvest_rate (new "ow") "aa" 50 = Except.error ContractError.notAPlayer
    from rfl] at h
  exact Except.noConfusion h

/-- C7 (amended): with a rate in `[0,100]` and no participant record for
the caller, `set_reinvest_rate` rejects with the `"Not a player"` error
(the strict variant); as an aborted call it mutates nothing. -/
theorem c7_rate_strict (s : State) (c : Account) (rate : Nat)
    (hr : rate ≤ 100) (hc : lookupEntry c s.players = none) :
    set_reinvest_rate s c rate = .error .notAPlayer := by
  simp [set_reinvest_rate, hr, hc]

/-- C7 witness: rate 50 by an unknown caller on the fresh state. -/
theorem c7_witness : set_reinvest_rate (new "ow") "aa" 50 = Except.error ContractError.notAPlayer :=
  c7_rate_strict (new "ow") "aa" 50 (by decide) (by decide)

/-- C8: `disable_owner` called by the owner replaces the owner with the
empty-string sentinel; any other caller gets `NotAuthorized` (the
`"Not owner"` panic) and nothing changes; the step is one-way: the old
owner can no longer pass the owner check afterwards. -/
theorem c8_disable_owner (s : State) (c : Account) :
    (c = s.owner_id → disable_owner s c = .ok { s with owner_id := "" }) ∧
    (c ≠ s.owner_id → disable_owner s c = .error .notAuthorized) ∧
    (c = s.owner_id → c ≠ "" → disable_owner { s with owner_id := "" } c = .error .notAuthorized) := by
  refine ⟨?_, ?_, ?_⟩
  · intro h
    simp [disable_owner, h]
  · intro h
    simp [disable_owner, h]
  · intro h hne
    have hx : c ≠ ({ s with owner_id := "" } : State).owner_id := hne
    simp [disable_owner, hx]

/-- C8 witness: the owner disables successfully, a stranger is rejected,
and the old owner is rejected after disabling. -/
theorem c8_witness :
    disable_owner (new "ow") "ow" = .ok { new "ow" with owner_id := "" } ∧
    disable_owner (new "ow") "eve" = .error .notAuthorized ∧
    disable_owner { new "ow" with owner_id := "" } "ow" = .error .notAuthorized :=
  ⟨(c8_disable_owner (new "ow") "ow").1 (by decide),
    (c8_disable_owner (new "ow") "eve").2.1 (by decide),
    (c8_disable_owner (new "ow") "ow").2.2 (by decide) (by decide)⟩

/-- C9: from any invariant state a placement terminates: fuel 2 bounds the
cascade (one increment, at most one completion and one re-placement) and
any extra fuel computes the same state; in the degenerate case where the
completed owner remains the emptiest after its reset, `on_matrix_full`
stops with no further placement at any fuel. -/
theorem c9_cascade_terminates :
    (∀ s o, Inv s → ∃ s', ∀ n, apply_spill (n + 2) s o = some s') ∧
    (∀ s o p, lookupEntry o s.players = some p →
      find_emptiest_matrix (resetAfterFull s o p) = o →
      ∀ n, on_matrix_full n s o = some (resetAfterFull s o p)) := by
  constructor
  · exact fun s o h => apply_spill_total s o h
  · intro s o p hp he n
    unfold on_matrix_full
    rw [hp]
    simp [he]

/-- C9 witness: on the fill-9 one-player state the spill succeeds with
fuel 2, fuel 7 computes the same result, and the completion of the sole
player (still emptiest after reset) triggers no further placement even at
fuel 0. -/
theorem c9_witness :
    (apply_spill 2 sA "aa").isSome = true ∧
    apply_spill 7 sA "aa" = apply_spill 2 sA "aa" ∧
    on_matrix_full 0 sA "aa" = some (resetAfterFull sA "aa" pA) := by
  obtain ⟨s', hs⟩ := c9_cascade_terminates.1 sA "aa" (by decide)
  refine ⟨?_, ?_, c9_cascade_terminates.2 sA "aa" pA (by decide) (by decide) 0⟩
  · rw [show (2 : Nat) = 0 + 2 from rfl, hs 0]
    rfl
  · rw [show (7 : Nat) = 5 + 2 from rfl, hs 5, show (2 : Nat) = 0 + 2 from rfl, hs 0]

/-- C10: when `distribute_daily` actually distributes with a positive
share, the daily pool is zeroed while only `share * total_players` is
credited to pending balances; the truncation remainder goes to no pool
and no balance, so when the pool is not a multiple of the player count
the total tracked value strictly decreases. -/
theorem c10_distribution_dust (s : State) (now : Nat) (hInv : Inv s)
    (hw : day_ns < wsub64 now s.last_daily_ts)
    (ht : 0 < s.total_players)
    (hsh : s.total_players ≤ s.daily_pool)
    (hrem : ¬ s.total_players ∣ s.daily_pool)
    (hov : ∀ ap ∈ s.players,
      (ap : Account × Player).2.pending_balance + s.daily_pool / s.total_players < 2 ^ 128) :
    distribute_daily s now = .ok (runState s (distribute_daily s now)) ∧
    (runState s (distribute_daily s now)).daily_pool = 0 ∧
    (runState s (distribute_daily s now)).monthly_pool = s.monthly_pool ∧
    (runState s (distribute_daily s now)).yearly_pool = s.yearly_pool ∧
    (runState s (distribute_daily s now)).global_pool = s.global_pool ∧
    pendSum (runState s (distribute_daily s now)) =
      pendSum s + s.daily_pool / s.total_players * s.total_players ∧
    totalValue (runState s (distribute_daily s now)) < totalValue s := by
  have hd0 : s.daily_pool ≠ 0 := by
    intro h
    exact hrem (h ▸ dvd_zero s.total_players)
  have hshare : s.daily_pool / s.total_players ≠ 0 := by
    have h1 := (Nat.one_le_div_iff ht).mpr hsh
    omega
  have hres : runState s (distribute_daily s now) = { s with
      players := s.players.map fun ap =>
        (ap.1, { ap.2 with pending_balance := w128 (ap.2.pending_balance + s.daily_pool / s.total_players) })
      daily_pool := 0
      last_daily_ts := now } := by
    simp [distribute_daily, runState, hw, ht, hd0, hshare]
  have hok : distribute_daily s now = .ok ({ s with
      players := s.players.map fun ap =>
        (ap.1, { ap.2 with pending_balance := w128 (ap.2.pending_balance + s.daily_pool / s.total_players) })
      daily_pool := 0
      last_daily_ts := now } : State) := by
    simp [distribute_daily, hw, ht, hd0, hshare]
  have hlen : s.players.length = s.total_players := hInv.2.2.2.2.2.2
  have hps : pendSum (runState s (distribute_daily s now)) =
      pendSum s + s.daily_pool / s.total_players * s.total_players := by
    rw [hres]
    unfold pendSum
    dsimp only
    rw [pendSum_map_add s.players (s.daily_pool / s.total_players) hov, hlen]
  have e1 : (runState s (distribute_daily s now)).daily_pool = 0 := by rw [hres]
  have e2 : (runState s (distribute_daily s now)).monthly_pool = s.monthly_pool := by rw [hres]
  have e3 : (runState s (distribute_daily s now)).yearly_pool = s.yearly_pool := by rw [hres]
  have e4 : (runState s (distribute_daily s now)).global_pool = s.global_pool := by rw [hres]
  refine ⟨by rw [hres]; exact hok, e1, e2, e3, e4, hps, ?_⟩
  unfold totalValue
  rw [e1, e2, e3, e4, hps]
  have hmul := Nat.div_mul_le_self s.daily_pool s.total_players
  have hne : s.daily_pool / s.total_players * s.total_players ≠ s.daily_pool := by
    intro h
    exact hrem ⟨s.daily_pool / s.total_players, h.symm.trans (Nat.mul_comm _ _)⟩
  omega

/-- C10 witness: three players and a daily pool of 7 lose the remainder 1
on distribution. -/
theorem c10_witness :
    distribute_daily sD (day_ns + 1) = .ok (runState sD (distribute_daily sD (day_ns + 1))) ∧
    pendSum (runState sD (distribute_daily sD (day_ns + 1))) =
      pendSum sD + sD.daily_pool / sD.total_players * sD.total_players ∧
    totalValue (runState sD (distribute_daily sD (day_ns + 1))) < totalValue sD := by
  have h := c10_distribution_dust sD (day_ns + 1) (by decide) (by decide) (by decide)
    (by decide) (by decide) (by decide)
  exact ⟨h.1, h.2.2.2.2.2.1, h.2.2.2.2.2.2⟩

end Bizon
